import Mathlib

/-!
Verification of the retrieval pipeline of the NASA BioSpace Explorer backend:
a shallow embedding of `backend/app/services/search.py` and
`backend/app/services/vector_store.py`, with theorems settling the stated
properties of hybrid search, snippet extraction, metadata filtering and
answer composition.

Text is modelled as `List Char` (`Str`), scores as `ℚ` (the Python code uses
floats; all arithmetic involved is exact on the rationals), SQLite rows as a
structure, and the external oracles (embedding model, FAISS index, sklearn
TF-IDF similarity, summarizer) as explicit function parameters, as the design
document treats them.
-/

/-- Text, modelled as a list of characters. -/
abbrev Str := List Char

/-- ASCII lower-casing of one character (Python `str.lower` on the ASCII
inputs the pipeline handles). -/
def lowerChar (c : Char) : Char :=
  if 'A' ≤ c ∧ c ≤ 'Z' then Char.ofNat (c.toNat + 32) else c

/-- Python `str.lower`. -/
def lowerStr (s : Str) : Str := s.map lowerChar

/-- Whitespace, as recognised by Python `str.split()` / `str.strip()` for the
inputs at hand. -/
def isSpace (c : Char) : Bool :=
  c = ' ' || c = '\t' || c = '\n' || c = '\r'

/-- Python `str.strip()`. -/
def strip (s : Str) : Str :=
  ((s.dropWhile isSpace).reverse.dropWhile isSpace).reverse

/-- Does `w` occur at the start of `t`? -/
def startsWith : Str → Str → Bool
  | [], _ => true
  | _ :: _, [] => false
  | c :: cs, d :: ds => c = d && startsWith cs ds

/-- Python `str.find`: index of the first occurrence of `w` in `t`, `none`
when absent (Python returns `-1`). -/
def findSub (t w : Str) : Option Nat :=
  (List.range (t.length + 1)).find? (fun i => startsWith w (t.drop i))

/-- Substring test (`w in t` in Python). -/
def containsSub (t w : Str) : Bool := (findSub t w).isSome

/-- Helper for `words`: `cur` holds the characters of the word currently
being read, in reverse. -/
def wordsAux (cur : Str) : Str → List Str
  | [] => if cur.isEmpty then [] else [cur.reverse]
  | c :: rest =>
    if isSpace c then
      if cur.isEmpty then wordsAux [] rest else cur.reverse :: wordsAux [] rest
    else wordsAux (c :: cur) rest

/-- Python `str.split()` with no argument: split on runs of whitespace,
dropping empty pieces. -/
def words (s : Str) : List Str := wordsAux [] s

/-- Minimum of a nonempty list of naturals (Python `min`); `0` on `[]`,
which the code never passes. -/
def natListMin : List Nat → Nat
  | [] => 0
  | x :: xs => xs.foldl Nat.min x

/-- The ellipsis affixed to truncated snippets. -/
def dots : Str := ['.', '.', '.']

/-- Embeds `SearchService._make_snippet`.  Mirrors the Python line by line:
`pos = min([t.lower().find(w) for w in q if t.lower().find(w) >= 0] + [0])`,
`start = max(0, pos - max_len // 3)`, `end = min(len(t), start + max_len)`,
slice, strip, affix ellipses when the window does not span the text. -/
def make_snippet (text query : Str) (max_len : Nat := 240) : Str :=
  if text.isEmpty then []
  else
    let q := words (lowerStr query)
    let tl := lowerStr text
    let found := q.filterMap (fun w => findSub tl w)
    let pos := natListMin (found ++ [0])
    let start := pos - max_len / 3
    let stop := Nat.min text.length (start + max_len)
    let snippet := strip ((text.drop start).take (stop - start))
    if 0 < start ∨ stop < text.length then dots ++ snippet ++ dots else snippet

/-- C2: snippet extraction on text `"the quick brown fox"` with query
`"brown"` and `max_len = 10`.  The code computes
`pos = min([t.lower().find(w) ...] + [0])`, and since `0` is always a
candidate of the `min`, `pos` is `0` regardless of where the query word
occurs; the returned snippet is `"...the quick..."`, which does not contain
`"brown"` (the claimed earliest-match anchoring never happens).  Empty text
does yield an empty snippet. -/
theorem make_snippet_bug_at_brown :
    make_snippet ("the quick brown fox".toList) ("brown".toList) 10
        = ("...the quick...").toList
      ∧ containsSub (make_snippet ("the quick brown fox".toList) ("brown".toList) 10)
          ("brown".toList) = false
      ∧ make_snippet [] ("brown".toList) 10 = [] := by
  refine ⟨by decide, by decide, by decide⟩

/-! ## The metadata store (`vector_store.py`, class `SQLiteMetadata`) -/

/-- A row of the `documents` table.  All columns except the primary key are
nullable; `keywords` is always written by `upsert_documents` as the
comma-joined keyword list, hence non-null. -/
structure Row where
  id : Str
  title : Option Str
  abstract : Option Str
  year : Option Int
  authors : Option Str
  url : Option Str
  organism : Option Str
  keywords : Str
deriving DecidableEq

/-- A decoded document as the service layer sees it: the stored `keywords`
string split back into a list. -/
structure Doc where
  id : Str
  title : Option Str
  abstract : Option Str
  year : Option Int
  authors : Option Str
  url : Option Str
  organism : Option Str
  keywords : List Str
deriving DecidableEq

/-- Python `",".join(keywords)`. -/
def joinComma : List Str → Str
  | [] => []
  | [x] => x
  | x :: xs => x ++ ',' :: joinComma xs

/-- Python `keywords.split(",")`: `"".split(",") = [""]`. -/
def splitComma : Str → List Str
  | [] => [[]]
  | c :: rest =>
    if c = ',' then [] :: splitComma rest
    else
      match splitComma rest with
      | [] => [[c]]
      | p :: ps => (c :: p) :: ps

/-- Encoding performed by `SQLiteMetadata.upsert_documents`:
`",".join(d.get("keywords", []) or [])` for the keywords column. -/
def encodeRow (d : Doc) : Row :=
  ⟨d.id, d.title, d.abstract, d.year, d.authors, d.url, d.organism,
    joinComma d.keywords⟩

/-- Decoding performed on read:
`doc["keywords"] = [k for k in doc["keywords"].split(",") if k]`. -/
def decodeRow (r : Row) : Doc :=
  ⟨r.id, r.title, r.abstract, r.year, r.authors, r.url, r.organism,
    (splitComma r.keywords).filter (fun k => !k.isEmpty)⟩

/-- Embeds `SQLiteMetadata.get_documents`: `SELECT * FROM documents WHERE id IN (...)`,
rows in table order, keywords decoded.  An empty id list matches nothing
(SQLite accepts the empty `IN ()` list and it is false). -/
def get_documents (ids : List Str) (store : List Row) : List Doc :=
  (store.filter (fun r => ids.any (fun i => decide (i = r.id)))).map decodeRow

/-- One `INSERT ... ON CONFLICT(id) DO UPDATE` step: replace the row sharing
the primary key in place, otherwise append. -/
def upsertOne (store : List Row) (r : Row) : List Row :=
  if store.any (fun x => decide (x.id = r.id)) then
    store.map (fun x => if x.id = r.id then r else x)
  else store ++ [r]

/-- Embeds `SQLiteMetadata.upsert_documents` over a batch (the `executemany`). -/
def upsert_documents (docs : List Doc) (store : List Row) : List Row :=
  docs.foldl (fun s d => upsertOne s (encodeRow d)) store

/-! ## `SQLiteMetadata.filter` and the SQL fragments it builds -/

/-- SQLite `LIKE`, via fuel-bounded structural recursion so that the kernel
can evaluate it: `%` matches any run, `_` any single character, letters
compare ASCII-case-insensitively (SQLite's default `LIKE` behaviour). -/
def likeMatchAux : Nat → Str → Str → Bool
  | 0, _, _ => false
  | _ + 1, [], [] => true
  | _ + 1, [], _ :: _ => false
  | fuel + 1, c :: ps, s =>
    if c = '%' then
      likeMatchAux fuel ps s ||
        (match s with
         | [] => false
         | _ :: s2 => likeMatchAux fuel (c :: ps) s2)
    else
      match s with
      | [] => false
      | d :: ds =>
        (if c = '_' then true else lowerChar c = lowerChar d) &&
          likeMatchAux fuel ps ds

/-- SQLite `s LIKE p`.  Every recursive step of `likeMatchAux` shrinks
`p.length + s.length`, so this fuel always suffices. -/
def likeMatch (p s : Str) : Bool := likeMatchAux (p.length + s.length + 1) p s

/-- The clause `keywords LIKE ?` with parameter `f"%{kw}%"`. -/
def likeContains (kw s : Str) : Bool := likeMatch ('%' :: (kw ++ ['%'])) s

/-- The `WHERE` clauses `SQLiteMetadata.filter` accumulates, translated
condition for condition: `if organism:` (Python truthiness: `None` and the
empty string add no clause), `if year_from is not None:`,
`if year_to is not None:`, and one `keywords LIKE ?` clause per keyword
(`if keywords:` plus the loop; an empty list adds none either way).  A
`NULL` column never satisfies a comparison (SQL three-valued logic). -/
def filterClauses (org : Option Str) (yf yt : Option Int) (kws : List Str) :
    List (Row → Bool) :=
  (match org with
   | some o => if o.isEmpty then [] else [fun r => decide (r.organism = some o)]
   | none => [])
  ++ (match yf with
      | some y =>
        [fun r => match r.year with
                  | some ry => decide (y ≤ ry)
                  | none => false]
      | none => [])
  ++ (match yt with
      | some y =>
        [fun r => match r.year with
                  | some ry => decide (ry ≤ y)
                  | none => false]
      | none => [])
  ++ kws.map (fun kw => fun r => likeContains kw r.keywords)

/-- A row satisfies the conjunction of the accumulated clauses. -/
def rowMatches (cs : List (Row → Bool)) (r : Row) : Bool := cs.all (fun c => c r)

/-- The `ORDER BY year DESC` comparison on nullable years: SQLite sorts `NULL`
smallest, hence last under `DESC`. -/
def yearLE (a b : Option Int) : Bool :=
  match a, b with
  | none, _ => true
  | some _, none => false
  | some x, some y => decide (x ≤ y)

/-- Row comparator realising `ORDER BY year DESC`. -/
def yearDescRow (a b : Row) : Bool := yearLE b.year a.year

/-- The same descending-year relation on decoded documents. -/
def yearDescDoc (a b : Doc) : Bool := yearLE b.year a.year

/-- Insertion step of the sort used to model the SQL `ORDER BY` and the
Python `list.sort` (any stable comparison sort realises both). -/
def insertBy (le : α → α → Bool) (x : α) : List α → List α
  | [] => [x]
  | y :: ys => if le x y then x :: y :: ys else y :: insertBy le x ys

/-- Insertion sort by a boolean comparison. -/
def sortBy (le : α → α → Bool) : List α → List α
  | [] => []
  | x :: xs => insertBy le x (sortBy le xs)

/-- The rows `SELECT * FROM documents WHERE ... ORDER BY year DESC LIMIT ?`
produces. -/
def filterRows (store : List Row) (org : Option Str) (yf yt : Option Int)
    (kws : List Str) (limit : Nat) : List Row :=
  (sortBy yearDescRow
    (store.filter (rowMatches (filterClauses org yf yt kws)))).take limit

/-- Embeds `SQLiteMetadata.filter`: the selected rows, keywords decoded. -/
def SQLiteMetadata.filter (store : List Row) (org : Option Str)
    (yf yt : Option Int) (kws : List Str) (limit : Nat) : List Doc :=
  (filterRows store org yf yt kws limit).map decodeRow

/-! ## Hybrid fusion (`SearchService.hybrid_search`) -/

/-- A search hit as fusion consumes it: document identifier and raw score
(`h["id"]`, `h["score"]`). -/
abbrev HitList := List (Str × ℚ)

/-- The `numpy` `.min()` of a score column (unused by the code on `[]`). -/
def listMin : List ℚ → ℚ
  | [] => 0
  | x :: xs => xs.foldl min x

/-- The `numpy` `.max()` of a score column. -/
def listMax : List ℚ → ℚ
  | [] => 0
  | x :: xs => xs.foldl max x

/-- The `1e-9` guard added to the range. -/
def eps : ℚ := 1 / 1000000000

/-- Min-max normalization as the code performs it:
`(scores - scores.min()) / (scores.ptp() + 1e-9)` where `ptp = max - min`. -/
def minmaxNorm (l : List ℚ) : List ℚ :=
  l.map (fun s => (s - listMin l) / (listMax l - listMin l + eps))

/-- The `_vscore` / `_kscore` fields of one entry of the fusion dictionary. -/
structure FEntry where
  v : Option ℚ
  k : Option ℚ
deriving DecidableEq

/-- The fusion dictionary `combined`, insertion-ordered as a Python dict. -/
abbrev FMap := List (Str × FEntry)

/-- The membership test `h["id"] in combined`. -/
def keyMem (m : FMap) (i : Str) : Bool := m.any (fun p => decide (p.1 = i))

/-- Vector pass over `combined`: `combined[id] = dict(h);
combined[id]["_vscore"] = float(s)` — a wholesale replace (or append). -/
def insertVec (m : FMap) (i : Str) (s : ℚ) : FMap :=
  if keyMem m i then
    m.map (fun p => if p.1 = i then (p.1, ⟨some s, none⟩) else p)
  else m ++ [(i, ⟨some s, none⟩)]

/-- Keyword pass over `combined`: on a key already present,
`_kscore = max(float(s), combined[id].get("_kscore", 0.0))`; otherwise a new
entry with only `_kscore`. -/
def insertKw (m : FMap) (i : Str) (s : ℚ) : FMap :=
  if keyMem m i then
    m.map (fun p =>
      if p.1 = i then (p.1, ⟨p.2.v, some (max s (p.2.k.getD 0))⟩) else p)
  else m ++ [(i, ⟨none, some s⟩)]

/-- Ids of the vector hits paired with their normalized scores
(`zip(vec_hits, v_norm)`). -/
def vassoc (vh : HitList) : List (Str × ℚ) :=
  (vh.map Prod.fst).zip (minmaxNorm (vh.map Prod.snd))

/-- Ids of the keyword hits paired with their normalized scores. -/
def kassoc (kh : HitList) : List (Str × ℚ) :=
  (kh.map Prod.fst).zip (minmaxNorm (kh.map Prod.snd))

/-- Both passes of the fusion loop (the `if vec_hits:` / `if kw_hits:`
guards are redundant for empty lists, whose passes do nothing). -/
def buildCombined (vh kh : HitList) : FMap :=
  (kassoc kh).foldl (fun m p => insertKw m p.1 p.2)
    ((vassoc vh).foldl (fun m p => insertVec m p.1 p.2) [])

/-- The fused score `0.6 * d.get("_vscore", 0.0) + 0.4 * d.get("_kscore", 0.0)`. -/
def fuseScore (e : FEntry) : ℚ := 6/10 * e.v.getD 0 + 4/10 * e.k.getD 0

/-- Comparator of `rescored.sort(key=lambda x: x["score"], reverse=True)`. -/
def scoreDescLE (a b : Str × ℚ) : Bool := decide (b.2 ≤ a.2)

/-- Embeds `SearchService.hybrid_search`, as a function of the two sub-search
result lists (each of which the code requests with `top_k * 2`): fuse,
rescore, sort descending, truncate to `top_k`. -/
def hybrid_search (vh kh : HitList) (top_k : Nat) : HitList :=
  (sortBy scoreDescLE
    ((buildCombined vh kh).map (fun p => (p.1, fuseScore p.2)))).take top_k

/-- First entry of an association list holding a key (`find?` on the key). -/
def pairlookup (m : List (Str × α)) (i : Str) : Option (Str × α) :=
  m.find? (fun p => decide (p.1 = i))

/-- Value lookup in an association list. -/
def alookup (m : List (Str × α)) (i : Str) : Option α :=
  (pairlookup m i).map Prod.snd

/-! ## Vector (semantic) search (`SearchService.semantic_search`) -/

/-- One turn of the result loop of `semantic_search`: skip an index
position outside the bounds of the id list (`if idx < 0 or idx >=
len(self._ids): continue`), skip a resolved identifier the metadata store
does not hold (`if not docs: continue`), otherwise append the document with
its raw score. -/
def semStep (ids : List Str) (store : List Row)
    (acc : List (Doc × ℚ)) (h : ℚ × Int) : List (Doc × ℚ) :=
  if h.2 < 0 ∨ (ids.length : Int) ≤ h.2 then acc
  else
    match get_documents [ids.getD (Int.toNat h.2) []] store with
    | [] => acc
    | d :: _ => acc ++ [(d, h.1)]

/-- Embeds `SearchService.semantic_search` downstream of the oracles: `hits` is the
`zip(scores[0], idxs[0])` row the FAISS index returned, `ids` the sidecar id
list. -/
def semantic_search (ids : List Str) (store : List Row)
    (hits : List (ℚ × Int)) : List (Doc × ℚ) :=
  hits.foldl (semStep ids store) []

/-! ## Keyword search and the TF-IDF cache (`_ensure_tfidf`, `keyword_search`) -/

/-- The text choice `d.get("abstract") or d.get("title") or ""`: Python `or` falls through
on `None` and on the empty string. -/
def textOrEmpty (d : Doc) : Str :=
  let a := d.abstract.getD []
  if a.isEmpty then d.title.getD [] else a

/-- The mutable service state the TF-IDF cache lives in: the metadata store
plus the cached snapshot.  `tfidf = some entries` stands for a fitted
vectorizer/matrix over `entries` (identifier and abstract-or-title text per
document at build time); `none` for the unbuilt/emptied cache. -/
structure SvcState where
  store : List Row
  tfidf : Option (List (Str × Str))
deriving DecidableEq

/-- The rebuild arm of `_ensure_tfidf`: snapshot
`self.metadata.filter(limit=100000)`, take abstract-or-title per document,
and leave the cache empty when the corpus is empty. -/
def rebuild_tfidf (st : SvcState) : SvcState :=
  let docs := SQLiteMetadata.filter st.store none none none [] 100000
  let texts := docs.map (fun d => (d.id, textOrEmpty d))
  if texts.isEmpty then { st with tfidf := none }
  else { st with tfidf := some texts }

/-- Embeds `SearchService._ensure_tfidf`: return at once when the vectorizer,
matrix and a nonempty id list are present; rebuild otherwise. -/
def ensure_tfidf (st : SvcState) : SvcState :=
  match st.tfidf with
  | some l => if l.isEmpty then rebuild_tfidf st else st
  | none => rebuild_tfidf st

/-- One turn of the result loop of `keyword_search`: resolve the cached id
at position `i` against the fetched-documents dictionary, skip it when the
store no longer holds it (`if not d: continue`), else append the document
with its similarity score. -/
def kwStep (entries : List (Str × Str)) (fetched : List Doc) (sims : List ℚ)
    (acc : List (Doc × ℚ)) (i : Nat) : List (Doc × ℚ) :=
  match fetched.find? (fun d => decide (d.id = (entries.getD i ([], [])).1)) with
  | none => acc
  | some d => acc ++ [(d, sims.getD i 0)]

/-- Embeds `SearchService.keyword_search`, with the sklearn TF-IDF similarity as an
oracle `sim` (query text and document text to linear-kernel score): ensure
the cache, bail out empty without it, score every cached document, argsort
descending, truncate to `top_k`, fetch the documents by the cached ids and
skip any id the store no longer resolves. -/
def keyword_search (sim : Str → Str → ℚ) (query : Str) (top_k : Nat)
    (st : SvcState) : List (Doc × ℚ) × SvcState :=
  let st2 := ensure_tfidf st
  match st2.tfidf with
  | none => ([], st2)
  | some entries =>
    if entries.isEmpty then ([], st2)
    else
      let sims := entries.map (fun e => sim query e.2)
      let top_idx :=
        (sortBy (fun i j => decide (sims.getD j 0 ≤ sims.getD i 0))
          (List.range entries.length)).take top_k
      let docIds := top_idx.map (fun i => (entries.getD i ([], [])).1)
      let fetched := get_documents docIds st2.store
      (top_idx.foldl (kwStep entries fetched sims) [], st2)

/-- Ingestion seen from the service: documents are upserted into the
metadata store; nothing touches the TF-IDF cache (the design gap §9 of the
design document calls out). -/
def svc_upsert (docs : List Doc) (st : SvcState) : SvcState :=
  { st with store := upsert_documents docs st.store }

/-! ## Answer composition (`answer_query`, `_summarize_local`) -/

/-- The fixed no-context sentence. -/
def sentinel : Str :=
  ("No sufficient context found to summarize. Try a different query.").toList

/-- The `"\n\n"` separator of the context join. -/
def newline2 : Str := ['\n', '\n']

/-- Python `sep.join(xs)`. -/
def joinWith (sep : Str) : List Str → Str
  | [] => []
  | [x] => x
  | x :: xs => x ++ sep ++ joinWith sep xs

/-- Embeds `SearchService._summarize_local` with the optional summarization oracle:
sentinel on blank context, else the (truncated-input) model summary, else
the 800-character extractive fallback. -/
def summarize_local (summ : Option (Str → Str)) (contexts : List Str) : Str :=
  let joined := joinWith newline2 contexts
  if (strip joined).isEmpty then sentinel
  else
    match summ with
    | some f => f (joined.take 4000)
    | none => joined.take 800 ++ (if 800 < joined.length then dots else [])

/-- Embeds `SearchService.answer_query`, downstream of the oracles: when
`context_ids` is falsy, the ids of an internal hybrid search (over the two
sub-search results `vh`, `kh`) are used; the cited documents are fetched,
the first five abstract-or-title texts summarized, and one citation per
fetched document returned in fetch order. -/
def answer_query (store : List Row) (summ : Option (Str → Str))
    (vh kh : HitList) (context_ids : List Str) (top_k : Nat) :
    Str × List (Str × Option Str × Option Str) :=
  let ctx :=
    if context_ids.isEmpty then (hybrid_search vh kh top_k).map Prod.fst
    else context_ids
  let docs := get_documents ctx store
  let contexts := (docs.map textOrEmpty).take 5
  (summarize_local summ contexts, docs.map (fun d => (d.id, d.title, d.url)))

/-! ## Lemmas about the insertion sort -/

theorem mem_insertBy (le : α → α → Bool) (x a : α) (l : List α) :
    a ∈ insertBy le x l ↔ a = x ∨ a ∈ l := by
  induction l with
  | nil => simp [insertBy]
  | cons y ys ih =>
    simp only [insertBy]
    by_cases h : le x y = true
    · rw [if_pos h]
      simp only [List.mem_cons]
    · rw [if_neg h]
      simp only [List.mem_cons, ih]
      tauto

theorem length_insertBy (le : α → α → Bool) (x : α) (l : List α) :
    (insertBy le x l).length = l.length + 1 := by
  induction l with
  | nil => simp [insertBy]
  | cons y ys ih =>
    simp only [insertBy]
    by_cases h : le x y = true
    · rw [if_pos h]
      simp
    · rw [if_neg h]
      simp [ih]

theorem mem_sortBy (le : α → α → Bool) (a : α) (l : List α) :
    a ∈ sortBy le l ↔ a ∈ l := by
  induction l with
  | nil => simp [sortBy]
  | cons y ys ih => simp [sortBy, mem_insertBy, ih]

theorem length_sortBy (le : α → α → Bool) (l : List α) :
    (sortBy le l).length = l.length := by
  induction l with
  | nil => simp [sortBy]
  | cons y ys ih => simp [sortBy, length_insertBy, ih]

theorem pairwise_insertBy (le : α → α → Bool)
    (htot : ∀ a b, le a b = true ∨ le b a = true)
    (htr : ∀ a b c, le a b = true → le b c = true → le a c = true)
    (x : α) (l : List α) (hl : l.Pairwise (fun a b => le a b = true)) :
    (insertBy le x l).Pairwise (fun a b => le a b = true) := by
  induction l with
  | nil => simp [insertBy]
  | cons y ys ih =>
    rw [List.pairwise_cons] at hl
    obtain ⟨hy, hys⟩ := hl
    simp only [insertBy]
    by_cases h : le x y = true
    · rw [if_pos h, List.pairwise_cons]
      refine ⟨?_, List.pairwise_cons.mpr ⟨hy, hys⟩⟩
      intro z hz
      rcases List.mem_cons.mp hz with rfl | hz
      · exact h
      · exact htr x y z h (hy z hz)
    · rw [if_neg h, List.pairwise_cons]
      refine ⟨?_, ih hys⟩
      intro z hz
      rcases (mem_insertBy le x z ys).mp hz with rfl | hz
      · rcases htot z y with hzy | hyz
        · exact absurd hzy h
        · exact hyz
      · exact hy z hz

theorem pairwise_sortBy (le : α → α → Bool)
    (htot : ∀ a b, le a b = true ∨ le b a = true)
    (htr : ∀ a b c, le a b = true → le b c = true → le a c = true)
    (l : List α) :
    (sortBy le l).Pairwise (fun a b => le a b = true) := by
  induction l with
  | nil => simp [sortBy]
  | cons y ys ih => exact pairwise_insertBy le htot htr y _ ih

/-! ## Lemmas about the score-column minimum and maximum -/

theorem foldl_min_le (l : List ℚ) (a : ℚ) :
    l.foldl min a ≤ a ∧ ∀ x ∈ l, l.foldl min a ≤ x := by
  induction l generalizing a with
  | nil => simp
  | cons b t ih =>
    obtain ⟨h1, h2⟩ := ih (min a b)
    refine ⟨le_trans h1 (min_le_left a b), ?_⟩
    intro x hx
    rcases List.mem_cons.mp hx with rfl | hx
    · exact le_trans h1 (min_le_right a x)
    · exact h2 x hx

theorem le_foldl_max (l : List ℚ) (a : ℚ) :
    a ≤ l.foldl max a ∧ ∀ x ∈ l, x ≤ l.foldl max a := by
  induction l generalizing a with
  | nil => simp
  | cons b t ih =>
    obtain ⟨h1, h2⟩ := ih (max a b)
    refine ⟨le_trans (le_max_left a b) h1, ?_⟩
    intro x hx
    rcases List.mem_cons.mp hx with rfl | hx
    · exact le_trans (le_max_right a x) h1
    · exact h2 x hx

theorem listMin_le (l : List ℚ) (x : ℚ) (hx : x ∈ l) : listMin l ≤ x := by
  cases l with
  | nil => cases hx
  | cons a t =>
    rcases List.mem_cons.mp hx with rfl | hx
    · exact (foldl_min_le t x).1
    · exact (foldl_min_le t a).2 x hx

theorem le_listMax (l : List ℚ) (x : ℚ) (hx : x ∈ l) : x ≤ listMax l := by
  cases l with
  | nil => cases hx
  | cons a t =>
    rcases List.mem_cons.mp hx with rfl | hx
    · exact (le_foldl_max t x).1
    · exact (le_foldl_max t a).2 x hx

theorem foldl_min_mem (l : List ℚ) (a : ℚ) :
    l.foldl min a = a ∨ l.foldl min a ∈ l := by
  induction l generalizing a with
  | nil => simp
  | cons b t ih =>
    rcases ih (min a b) with h | h
    · rcases min_choice a b with hab | hab
      · left
        rw [List.foldl_cons, h, hab]
      · right
        rw [List.foldl_cons, h, hab]
        exact List.mem_cons_self b t
    · right
      exact List.mem_cons_of_mem b h

theorem foldl_max_mem (l : List ℚ) (a : ℚ) :
    l.foldl max a = a ∨ l.foldl max a ∈ l := by
  induction l generalizing a with
  | nil => simp
  | cons b t ih =>
    rcases ih (max a b) with h | h
    · rcases max_choice a b with hab | hab
      · left
        rw [List.foldl_cons, h, hab]
      · right
        rw [List.foldl_cons, h, hab]
        exact List.mem_cons_self b t
    · right
      exact List.mem_cons_of_mem b h

theorem listMin_mem (l : List ℚ) (hne : l ≠ []) : listMin l ∈ l := by
  cases l with
  | nil => exact absurd rfl hne
  | cons a t =>
    rcases foldl_min_mem t a with h | h
    · rw [listMin, h]
      exact List.mem_cons_self a t
    · exact List.mem_cons_of_mem a h

theorem listMax_mem (l : List ℚ) (hne : l ≠ []) : listMax l ∈ l := by
  cases l with
  | nil => exact absurd rfl hne
  | cons a t =>
    rcases foldl_max_mem t a with h | h
    · rw [listMax, h]
      exact List.mem_cons_self a t
    · exact List.mem_cons_of_mem a h

/-- Every min-max-normalized score is nonnegative and at most one:
the numerator is between `0` and the range, the denominator exceeds the
range by the positive `1e-9`. -/
theorem minmaxNorm_bounds (l : List ℚ) (y : ℚ) (hy : y ∈ minmaxNorm l) :
    0 ≤ y ∧ y ≤ 1 := by
  rcases List.mem_map.mp hy with ⟨x, hx, rfl⟩
  have hmin := listMin_le l x hx
  have hmax := le_listMax l x hx
  have hmm : listMin l ≤ listMax l := le_trans hmin hmax
  have hden : 0 < listMax l - listMin l + eps := by
    have : (0 : ℚ) < eps := by norm_num [eps]
    linarith
  constructor
  · exact div_nonneg (by linarith) (le_of_lt hden)
  · rw [div_le_one hden]
    have : (0 : ℚ) < eps := by norm_num [eps]
    linarith

/-- C4: on a nonempty constant-score result set the normalization yields `0`
for every element, and its denominator is strictly positive (no NaN, no
division error). -/
theorem minmaxNorm_const_zero (l : List ℚ) (c y : ℚ) (hne : l ≠ [])
    (hall : ∀ x ∈ l, x = c) (hy : y ∈ minmaxNorm l) :
    y = 0 ∧ 0 < listMax l - listMin l + eps := by
  have hminc : listMin l = c := hall _ (listMin_mem l hne)
  have hmaxc : listMax l = c := hall _ (listMax_mem l hne)
  refine ⟨?_, by rw [hminc, hmaxc]; norm_num [eps]⟩
  rcases List.mem_map.mp hy with ⟨x, hx, rfl⟩
  rw [hall x hx, hminc]
  simp

/-- Witness for C4 on the constant two-element score column `[5, 5]`. -/
theorem minmaxNorm_const_zero_witness :
    (0 : ℚ) = 0 ∧ 0 < listMax [5, 5] - listMin [5, 5] + eps :=
  minmaxNorm_const_zero [5, 5] 5 0 (by decide) (by decide)
    (by
      have h55 : minmaxNorm [5, 5] = [0, 0] := by
        norm_num [minmaxNorm, listMin, listMax, eps]
      rw [h55]
      simp)

/-- C5: hybrid search returns at most `top_k` results, whatever the two
sub-searches contributed. -/
theorem hybrid_search_length_le (vh kh : HitList) (top_k : Nat) :
    (hybrid_search vh kh top_k).length ≤ top_k := by
  rw [hybrid_search, List.length_take]
  exact min_le_left _ _

/-- The empty id list selects nothing from the store. -/
theorem get_documents_nil (store : List Row) : get_documents [] store = [] := by
  induction store with
  | nil => rfl
  | cons r t ih =>
    unfold get_documents at ih ⊢
    rw [List.filter_cons]
    simp only [List.any_nil, Bool.false_eq_true, if_false]
    exact ih

/-- C3: with `context_ids = []` and hybrid search finding no documents,
`answer_query` returns the fixed sentinel answer and no citations, for any
store, summarizer availability and requested `top_k`. -/
theorem answer_query_no_context (store : List Row) (summ : Option (Str → Str))
    (vh kh : HitList) (top_k : Nat)
    (h : hybrid_search vh kh top_k = []) :
    answer_query store summ vh kh [] top_k = (sentinel, []) := by
  simp [answer_query, h, get_documents_nil, summarize_local, joinWith, strip]

/-- Witness for C3 at the empty store, no summarizer, empty sub-search
results and `top_k = 0`. -/
theorem answer_query_no_context_witness :
    answer_query [] none [] [] [] 0 = (sentinel, []) :=
  answer_query_no_context [] none [] [] 0 (by decide)

/-- A skipped or appended step grows the accumulator by at most one hit. -/
theorem semStep_len (ids : List Str) (store : List Row)
    (acc : List (Doc × ℚ)) (h : ℚ × Int) :
    (semStep ids store acc h).length ≤ acc.length + 1 := by
  unfold semStep
  split
  · omega
  · split
    · omega
    · simp

theorem semantic_foldl_len (ids : List Str) (store : List Row)
    (hits : List (ℚ × Int)) :
    ∀ acc : List (Doc × ℚ),
      (hits.foldl (semStep ids store) acc).length ≤ acc.length + hits.length := by
  induction hits with
  | nil => intro acc; simp
  | cons h t ih =>
    intro acc
    rw [List.foldl_cons]
    have h1 := ih (semStep ids store acc h)
    have h2 := semStep_len ids store acc h
    simp only [List.length_cons]
    omega

/-- C6: semantic search silently skips a hit whose index position is
negative or out of the bounds of the id list, and a hit whose resolved
identifier the metadata store does not hold — removing such a hit from the
FAISS row leaves the result unchanged — and never returns more results than
the index produced rows (so fewer than `top_k` is possible). -/
theorem semantic_search_skips (ids : List Str) (store : List Row)
    (pre post hits : List (ℚ × Int)) (s : ℚ) (idx : Int)
    (h : idx < 0 ∨ (ids.length : Int) ≤ idx
        ∨ get_documents [ids.getD (Int.toNat idx) []] store = []) :
    semantic_search ids store (pre ++ (s, idx) :: post)
        = semantic_search ids store (pre ++ post)
    ∧ (semantic_search ids store hits).length ≤ hits.length := by
  constructor
  · unfold semantic_search
    rw [List.foldl_append, List.foldl_append, List.foldl_cons]
    have hstep : ∀ acc : List (Doc × ℚ), semStep ids store acc (s, idx) = acc := by
      intro acc
      unfold semStep
      by_cases hc : idx < 0 ∨ (ids.length : Int) ≤ idx
      · rw [if_pos hc]
      · rw [if_neg hc]
        rcases h with h1 | h2 | h3
        · exact absurd (Or.inl h1) hc
        · exact absurd (Or.inr h2) hc
        · rw [show get_documents [ids.getD (Int.toNat (s, idx).2) []] store = []
            from h3]
    rw [hstep]
  · simpa using semantic_foldl_len ids store hits []

/-- Witness for C6: an index position `0` against an empty id list is
skipped, and the result count is bounded by the FAISS row length. -/
theorem semantic_search_skips_witness :
    semantic_search [] [] [((0 : ℚ), (0 : Int))] = semantic_search [] [] []
    ∧ (semantic_search [] [] [((0 : ℚ), (0 : Int))]).length
        ≤ [((0 : ℚ), (0 : Int))].length :=
  semantic_search_skips [] [] [] [] [((0 : ℚ), (0 : Int))] 0 0
    (Or.inr (Or.inl (by decide)))

/-! ## The keywords round-trip (C10) -/

theorem splitComma_no_comma (s : Str) (h : ',' ∉ s) : splitComma s = [s] := by
  induction s with
  | nil => rfl
  | cons c cs ih =>
    have hc : ¬(c = ',') := fun hcc => h (hcc ▸ List.mem_cons_self c cs)
    have hcs : ',' ∉ cs := fun hin => h (List.mem_cons_of_mem c hin)
    unfold splitComma
    rw [if_neg hc, ih hcs]

theorem splitComma_append_comma (x t : Str) (h : ',' ∉ x) :
    splitComma (x ++ ',' :: t) = x :: splitComma t := by
  induction x with
  | nil =>
    simp only [List.nil_append]
    rw [splitComma]
    rw [if_pos rfl]
  | cons c cs ih =>
    have hc : ¬(c = ',') := fun hcc => h (hcc ▸ List.mem_cons_self c cs)
    have hcs : ',' ∉ cs := fun hin => h (List.mem_cons_of_mem c hin)
    simp only [List.cons_append]
    rw [splitComma]
    rw [if_neg hc, ih hcs]

theorem mem_splitComma_no_comma (s p : Str) (hp : p ∈ splitComma s) :
    ',' ∉ p := by
  induction s generalizing p with
  | nil =>
    unfold splitComma at hp
    rcases List.mem_singleton.mp hp with rfl
    simp
  | cons c cs ih =>
    unfold splitComma at hp
    by_cases hc : c = ','
    · rw [if_pos hc] at hp
      rcases List.mem_cons.mp hp with rfl | hp
      · simp
      · exact ih p hp
    · rw [if_neg hc] at hp
      cases hsc : splitComma cs with
      | nil =>
        rw [hsc] at hp
        rcases List.mem_singleton.mp hp with rfl
        intro hin
        rcases List.mem_singleton.mp hin with rfl
        exact hc rfl
      | cons q qs =>
        rw [hsc] at hp
        rcases List.mem_cons.mp hp with rfl | hp
        · intro hin
          rcases List.mem_cons.mp hin with rfl | hin
          · exact hc rfl
          · exact ih q (hsc ▸ List.mem_cons_self q qs) hin
        · exact ih p (hsc ▸ List.mem_cons_of_mem q hp)

/-- Comma-joining then comma-splitting restores a list of nonempty,
comma-free keyword strings once the empty pieces are filtered out. -/
theorem decode_encode_keywords (l : List Str)
    (h : ∀ p ∈ l, p ≠ [] ∧ ',' ∉ p) :
    (splitComma (joinComma l)).filter (fun k => !k.isEmpty) = l := by
  induction l with
  | nil => rfl
  | cons x xs ih =>
    cases xs with
    | nil =>
      obtain ⟨hx, hxc⟩ := h x (List.mem_singleton.mpr rfl)
      show (splitComma (joinComma [x])).filter (fun k => !k.isEmpty) = [x]
      rw [show joinComma [x] = x from rfl, splitComma_no_comma x hxc]
      have hxe : (!List.isEmpty x) = true := by
        cases x with
        | nil => exact absurd rfl hx
        | cons a as => rfl
      rw [List.filter_cons, if_pos hxe, List.filter_nil]
    | cons y rest =>
      obtain ⟨hx, hxc⟩ := h x (List.mem_cons_self x (y :: rest))
      have hjoin : joinComma (x :: y :: rest) = x ++ ',' :: joinComma (y :: rest) :=
        rfl
      rw [hjoin, splitComma_append_comma x (joinComma (y :: rest)) hxc,
        List.filter_cons]
      have hxe : (!List.isEmpty x) = true := by
        cases x with
        | nil => exact absurd rfl hx
        | cons a as => rfl
      rw [if_pos hxe, ih (fun p hp => h p (List.mem_cons_of_mem x hp))]

theorem map_noop (l : List Row) (f : Row → Row) (h : ∀ a ∈ l, f a = a) :
    l.map f = l := by
  induction l with
  | nil => rfl
  | cons a t ih =>
    rw [List.map_cons, h a (List.mem_cons_self a t),
      ih (fun b hb => h b (List.mem_cons_of_mem a hb))]

theorem get_documents_cons (ids : List Str) (x : Row) (t : List Row) :
    get_documents ids (x :: t)
      = (if ids.any (fun i => decide (i = x.id)) = true then [decodeRow x] else [])
        ++ get_documents ids t := by
  unfold get_documents
  rw [List.filter_cons]
  by_cases h : ids.any (fun i => decide (i = x.id)) = true
  · rw [if_pos h, if_pos h]
    simp
  · rw [if_neg h, if_neg h]
    simp

theorem get_documents_no_id (i : Str) (t : List Row)
    (h : ∀ y ∈ t, y.id ≠ i) : get_documents [i] t = [] := by
  induction t with
  | nil => exact get_documents_nil []
  | cons y ys ih =>
    rw [get_documents_cons]
    have hy : ([i].any (fun j => decide (j = y.id))) = false := by
      simp only [List.any_cons, List.any_nil, Bool.or_false, decide_eq_false_iff_not]
      exact fun hiy => h y (List.mem_cons_self y ys) hiy.symm
    rw [hy]
    simp only [Bool.false_eq_true, if_false, List.nil_append]
    exact ih (fun z hz => h z (List.mem_cons_of_mem y hz))

/-- After upserting `r` into a store with distinct primary keys, selecting
`r`'s id returns exactly the decoded `r`. -/
theorem get_after_upsertOne (store : List Row) (r : Row)
    (hnodup : (store.map Row.id).Nodup) :
    get_documents [r.id] (upsertOne store r) = [decodeRow r] := by
  induction store with
  | nil =>
    show get_documents [r.id] (upsertOne [] r) = [decodeRow r]
    unfold upsertOne
    rw [if_neg (by simp)]
    rw [List.nil_append, get_documents_cons]
    rw [if_pos (by simp)]
    simp [get_documents]
  | cons x t ih =>
    rw [List.map_cons, List.nodup_cons] at hnodup
    obtain ⟨hxid, htnodup⟩ := hnodup
    by_cases hx : x.id = r.id
    · -- the head row is the one replaced; no tail row shares the id
      have htno : ∀ y ∈ t, y.id ≠ r.id := by
        intro y hy hyr
        exact hxid (by rw [hx, ← hyr]; exact List.mem_map_of_mem Row.id hy)
      unfold upsertOne
      rw [if_pos (by simp [hx])]
      rw [List.map_cons, if_pos hx]
      rw [get_documents_cons, if_pos (by simp)]
      rw [map_noop t _ (fun y hy => by
        rw [if_neg (htno y hy)]), get_documents_no_id r.id t htno]
      simp
    · by_cases ht : t.any (fun y => decide (y.id = r.id)) = true
      · -- replacement happens in the tail
        have hany : (x :: t).any (fun y => decide (y.id = r.id)) = true := by
          simp only [List.any_cons, ht, Bool.or_true]
        unfold upsertOne
        rw [if_pos hany, List.map_cons, if_neg hx, get_documents_cons]
        rw [if_neg (by simp only [List.any_cons, List.any_nil, Bool.or_false,
          decide_eq_true_eq]; exact fun hrx => hx hrx.symm)]
        rw [List.nil_append]
        have := ih htnodup
        unfold upsertOne at this
        rw [if_pos ht] at this
        exact this
      · -- no row shares the id: the new row is appended
        have hany : (x :: t).any (fun y => decide (y.id = r.id)) = false := by
          simp only [List.any_cons, Bool.or_eq_false_iff, decide_eq_false_iff_not]
          refine ⟨hx, ?_⟩
          simpa using ht
        unfold upsertOne
        rw [if_neg (by simp [hany]), List.cons_append, get_documents_cons]
        rw [if_neg (by simp only [List.any_cons, List.any_nil, Bool.or_false,
          decide_eq_true_eq]; exact fun hrx => hx hrx.symm)]
        rw [List.nil_append]
        have := ih htnodup
        unfold upsertOne at this
        rw [if_neg ht] at this
        exact this

/-- C10: upserting a document whose keywords are all nonempty and comma-free
and reading it back by id restores the keywords list exactly; when some
keyword contains a comma, the round-trip never restores the list (the
decoded pieces are comma-free). -/
theorem keywords_roundtrip (store : List Row) (d : Doc)
    (hnodup : (store.map Row.id).Nodup) :
    ((d.keywords.all (fun kw => !kw.isEmpty && !kw.contains ',')) = true →
      (get_documents [d.id] (upsert_documents [d] store)).map Doc.keywords
        = [d.keywords])
    ∧ ((d.keywords.any (fun kw => kw.contains ',')) = true →
      (get_documents [d.id] (upsert_documents [d] store)).map Doc.keywords
        ≠ [d.keywords]) := by
  have hups : upsert_documents [d] store = upsertOne store (encodeRow d) := rfl
  have hid : (encodeRow d).id = d.id := rfl
  have hget : get_documents [d.id] (upsert_documents [d] store)
      = [decodeRow (encodeRow d)] := by
    rw [hups, ← hid]
    exact get_after_upsertOne store (encodeRow d) hnodup
  have hkw : (decodeRow (encodeRow d)).keywords
      = (splitComma (joinComma d.keywords)).filter (fun k => !k.isEmpty) := rfl
  constructor
  · intro hall
    rw [hget, List.map_singleton, hkw]
    rw [decode_encode_keywords d.keywords ?_]
    intro p hp
    have hp2 := (List.all_eq_true.mp hall) p hp
    simpa using hp2
  · intro hany heq
    rcases List.any_eq_true.mp hany with ⟨kw, hkwmem, hkwc⟩
    have hkweq : (decodeRow (encodeRow d)).keywords = d.keywords := by
      rw [hget, List.map_singleton] at heq
      simpa using heq
    have hkwin : kw ∈ (splitComma (joinComma d.keywords)).filter
        (fun k => !k.isEmpty) := by
      rw [← hkw, hkweq]
      exact hkwmem
    have hkwns : kw ∈ splitComma (joinComma d.keywords) :=
      List.mem_of_mem_filter hkwin
    have hnc : ',' ∉ kw := mem_splitComma_no_comma _ kw hkwns
    exact hnc (by simpa using hkwc)

/-- A concrete document used by witnesses. -/
def sampleDoc : Doc := ⟨['a'], none, none, none, none, none, none, [['b'], ['c']]⟩

/-- Witness for C10: the comma-free keywords `b` and `c` survive the
upsert/fetch round-trip through the empty store. -/
theorem keywords_roundtrip_witness :
    (get_documents [sampleDoc.id] (upsert_documents [sampleDoc] [])).map Doc.keywords
      = [sampleDoc.keywords] :=
  (keywords_roundtrip [] sampleDoc (by simp)).1 (by decide)

/-! ## Soundness of `SQLiteMetadata.filter` (C7) -/

theorem yearLE_total (a b : Option Int) :
    yearLE a b = true ∨ yearLE b a = true := by
  cases a with
  | none => left; rfl
  | some x =>
    cases b with
    | none => right; rfl
    | some y =>
      simp only [yearLE, decide_eq_true_eq]
      omega

theorem yearLE_trans (a b c : Option Int) (h1 : yearLE a b = true)
    (h2 : yearLE b c = true) : yearLE a c = true := by
  cases a with
  | none => rfl
  | some x =>
    cases b with
    | none => exact absurd h1 (by simp [yearLE])
    | some y =>
      cases c with
      | none => exact absurd h2 (by simp [yearLE])
      | some z =>
        simp only [yearLE, decide_eq_true_eq] at h1 h2 ⊢
        omega

theorem yearDescRow_total (a b : Row) :
    yearDescRow a b = true ∨ yearDescRow b a = true :=
  yearLE_total b.year a.year

theorem yearDescRow_trans (a b c : Row) (h1 : yearDescRow a b = true)
    (h2 : yearDescRow b c = true) : yearDescRow a c = true :=
  yearLE_trans c.year b.year a.year h2 h1

theorem rowMatches_append (A B : List (Row → Bool)) (r : Row) :
    rowMatches (A ++ B) r = (rowMatches A r && rowMatches B r) := by
  simp [rowMatches, List.all_append]

theorem all_map_apply (kws : List Str) (r : Row) :
    ((kws.map (fun kw => fun r2 : Row => likeContains kw r2.keywords)).all
      (fun c => c r)) = kws.all (fun kw => likeContains kw r.keywords) := by
  induction kws with
  | nil => rfl
  | cons k t ih => simp [List.all_cons, ih]

/-- C7 (amended): every row `SQLiteMetadata.filter` selects comes from the
store and satisfies each clause the call actually adds — organism equality
whenever a *nonempty* organism string is given (Python truthiness treats the
empty string like an absent argument), the year bounds, and one SQL `LIKE`
containment per requested keyword against the stored comma-joined keywords
column; the returned documents are its decodings, ordered by year
descending (`NULL` years last) and capped at `limit`. -/
theorem filter_sound (store : List Row) (org : Option Str) (yf yt : Option Int)
    (kws : List Str) (limit : Nat) (r : Row)
    (hr : r ∈ filterRows store org yf yt kws limit) :
    r ∈ store
    ∧ decodeRow r ∈ SQLiteMetadata.filter store org yf yt kws limit
    ∧ (match org with
       | some o => o = [] ∨ r.organism = some o
       | none => True)
    ∧ (match yf with
       | some y => (match r.year with | some ry => y ≤ ry | none => False)
       | none => True)
    ∧ (match yt with
       | some y => (match r.year with | some ry => ry ≤ y | none => False)
       | none => True)
    ∧ kws.all (fun kw => likeContains kw r.keywords) = true
    ∧ (SQLiteMetadata.filter store org yf yt kws limit).Pairwise
        (fun d1 d2 => yearDescDoc d1 d2 = true)
    ∧ (SQLiteMetadata.filter store org yf yt kws limit).length ≤ limit := by
  have hr2 : r ∈ sortBy yearDescRow
      (store.filter (rowMatches (filterClauses org yf yt kws))) :=
    List.take_subset limit _ hr
  have hr3 : r ∈ store.filter (rowMatches (filterClauses org yf yt kws)) :=
    (mem_sortBy _ r _).mp hr2
  have hrs : r ∈ store := List.mem_of_mem_filter hr3
  have hm : rowMatches (filterClauses org yf yt kws) r = true :=
    List.of_mem_filter hr3
  unfold filterClauses at hm
  rw [rowMatches_append, rowMatches_append, rowMatches_append] at hm
  simp only [Bool.and_eq_true] at hm
  obtain ⟨⟨⟨hmo, hmyf⟩, hmyt⟩, hmk⟩ := hm
  refine ⟨hrs, List.mem_map_of_mem decodeRow hr, ?_, ?_, ?_, ?_, ?_, ?_⟩
  · cases org with
    | none => trivial
    | some o =>
      by_cases ho : o.isEmpty = true
      · left
        exact List.isEmpty_iff.mp ho
      · right
        have hmo2 : rowMatches
            (if o.isEmpty = true then []
             else [fun r2 => decide (r2.organism = some o)]) r = true := hmo
        rw [if_neg ho] at hmo2
        simpa [rowMatches] using hmo2
  · cases yf with
    | none => trivial
    | some y =>
      have hmyf2 : rowMatches
          [fun r2 : Row => match r2.year with
                           | some ry => decide (y ≤ ry)
                           | none => false] r = true := hmyf
      simp only [rowMatches, List.all_cons, List.all_nil, Bool.and_true] at hmyf2
      cases hy : r.year with
      | none => rw [hy] at hmyf2; exact absurd hmyf2 (by simp)
      | some ry =>
        rw [hy] at hmyf2
        simpa using hmyf2
  · cases yt with
    | none => trivial
    | some y =>
      have hmyt2 : rowMatches
          [fun r2 : Row => match r2.year with
                           | some ry => decide (ry ≤ y)
                           | none => false] r = true := hmyt
      simp only [rowMatches, List.all_cons, List.all_nil, Bool.and_true] at hmyt2
      cases hy : r.year with
      | none => rw [hy] at hmyt2; exact absurd hmyt2 (by simp)
      | some ry =>
        rw [hy] at hmyt2
        simpa using hmyt2
  · have hmk2 : ((kws.map (fun kw => fun r2 : Row => likeContains kw r2.keywords)).all
        (fun c => c r)) = true := hmk
    rw [all_map_apply] at hmk2
    exact hmk2
  · unfold SQLiteMetadata.filter
    rw [List.pairwise_map]
    refine List.Pairwise.sublist (List.take_sublist limit _) ?_
    exact pairwise_sortBy yearDescRow yearDescRow_total yearDescRow_trans _
  · unfold SQLiteMetadata.filter filterRows
    rw [List.length_map, List.length_take]
    exact min_le_left _ _

/-- A concrete stored row used by the filter witnesses: id `a`, year 2020,
organism `M`, keywords column `x,y`. -/
def filterRow : Row :=
  ⟨['a'], none, none, some 2020, none, none, some ['M'], ['x', ',', 'y']⟩

/-- Witness for C7 at a store of one row matching organism `M`, years
2000–2030 and keyword `x`. -/
theorem filter_sound_witness :
    decodeRow filterRow
      ∈ SQLiteMetadata.filter [filterRow] (some ['M']) (some 2000) (some 2030)
          [['x']] 50
    ∧ (SQLiteMetadata.filter [filterRow] (some ['M']) (some 2000) (some 2030)
          [['x']] 50).length ≤ 50 :=
  ⟨(filter_sound [filterRow] (some ['M']) (some 2000) (some 2030) [['x']] 50
      filterRow (by decide)).2.1,
    (filter_sound [filterRow] (some ['M']) (some 2000) (some 2030) [['x']] 50
      filterRow (by decide)).2.2.2.2.2.2.2⟩

/-- A stored row whose only keyword is `xy` (column value `xy`). -/
def kwCexRow : Row :=
  ⟨['b'], none, none, some 2020, none, none, none, ['x', 'y']⟩

/-- Counterexample for C7 as stated, at two explicit inputs.  First, with
the *empty-string* organism argument the code adds no organism clause
(`if organism:` is false for `""`), so `filter` returns a document whose
organism differs from the given one — "organism equality for every given
organism" fails at `organism = ""`.  Second, the keyword clause is the SQL
test `keywords LIKE '%kw%'` against the stored comma-joined column —
ASCII-case-insensitive substring containment — not membership in the
document's keyword list: the keyword `X` selects the document whose only
keyword is `xy`, so "each keyword present" fails at `keywords = ["X"]`. -/
theorem filter_predicates_cex :
    ((SQLiteMetadata.filter [filterRow] (some []) none none [] 50).map
        Doc.organism = [some ['M']]
      ∧ (some ['M'] : Option Str) ≠ some ([] : Str))
    ∧ ((SQLiteMetadata.filter [kwCexRow] none none none [['X']] 50).map
        Doc.keywords = [[['x', 'y']]]
      ∧ (['X'] : Str) ∉ [(['x', 'y'] : Str)]) := by
  exact ⟨⟨by decide, by decide⟩, ⟨by decide, by decide⟩⟩

/-! ## Staleness of the TF-IDF cache (C8) -/

theorem getD_mem {α : Type} (l : List α) (i : Nat) (d : α) (h : i < l.length) :
    l.getD i d ∈ l := by
  induction l generalizing i with
  | nil => simp at h
  | cons a t ih =>
    cases i with
    | zero => simp [List.getD]
    | succ n =>
      have hn : n < t.length := by simpa using h
      rw [List.getD_cons_succ]
      exact List.mem_cons_of_mem a (ih n hn)

theorem kwFold_mem_aux (entries : List (Str × Str)) (fetched : List Doc)
    (sims : List ℚ) (idxs : List Nat) :
    ∀ acc : List (Doc × ℚ),
      (∀ i ∈ idxs, i < entries.length) →
      (∀ p ∈ acc, p.1.id ∈ entries.map Prod.fst) →
      ∀ p ∈ idxs.foldl (kwStep entries fetched sims) acc,
        p.1.id ∈ entries.map Prod.fst := by
  induction idxs with
  | nil =>
    intro acc _ hacc p hp
    exact hacc p hp
  | cons i t ih =>
    intro acc hidx hacc p hp
    rw [List.foldl_cons] at hp
    refine ih _ (fun j hj => hidx j (List.mem_cons_of_mem i hj)) ?_ p hp
    intro q hq
    unfold kwStep at hq
    cases hf : fetched.find?
        (fun d => decide (d.id = (entries.getD i ([], [])).1)) with
    | none =>
      rw [hf] at hq
      exact hacc q hq
    | some d =>
      rw [hf] at hq
      rcases List.mem_append.mp hq with hq | hq
      · exact hacc q hq
      · rcases List.mem_singleton.mp hq with rfl
        have hdid : d.id = (entries.getD i ([], [])).1 := by
          have := List.find?_some hf
          simpa using this
        have hi : i < entries.length := hidx i (List.mem_cons_self i t)
        rw [show (d, sims.getD i 0).1.id = d.id from rfl, hdid]
        exact List.mem_map_of_mem Prod.fst (getD_mem entries i ([], []) hi)

/-- C8: once the TF-IDF cache holds a nonempty snapshot, a keyword search
issued after any batch of documents has been upserted returns only documents
whose identifiers are in that snapshot — ingestion does not invalidate the
cache, so newly added identifiers are unreachable until a rebuild. -/
theorem keyword_search_snapshot (st : SvcState) (entries : List (Str × Str))
    (newdocs : List Doc) (sim : Str → Str → ℚ) (q : Str) (k : Nat)
    (p : Doc × ℚ)
    (hb : st.tfidf = some entries) (hne : entries ≠ [])
    (hp : p ∈ (keyword_search sim q k (svc_upsert newdocs st)).1) :
    p.1.id ∈ entries.map Prod.fst := by
  have hb2 : (svc_upsert newdocs st).tfidf = some entries := hb
  have hne2 : entries.isEmpty = false := by
    cases entries with
    | nil => exact absurd rfl hne
    | cons e t => rfl
  have hens : ensure_tfidf (svc_upsert newdocs st) = svc_upsert newdocs st := by
    unfold ensure_tfidf
    rw [hb2]
    simp [hne2]
  simp only [keyword_search, hens, hb2, hne2, Bool.false_eq_true, if_false] at hp
  refine kwFold_mem_aux entries _ _ _ [] ?_ (by simp) p hp
  intro i hi
  have hi2 : i ∈ sortBy
      (fun i j => decide ((entries.map (fun e => sim q e.2)).getD j 0
        ≤ (entries.map (fun e => sim q e.2)).getD i 0))
      (List.range entries.length) := List.take_subset k _ hi
  have hi3 : i ∈ List.range entries.length := (mem_sortBy _ i _).mp hi2
  exact List.mem_range.mp hi3

/-- A stored row with identifier `a` and no other fields. -/
def kwRow : Row := ⟨['a'], none, none, none, none, none, none, []⟩

/-- A document with the fresh identifier `b`, upserted after cache build. -/
def newDoc : Doc := ⟨['b'], none, none, none, none, none, none, []⟩

/-- A service state whose TF-IDF cache was built over the single document
`a`. -/
def kwState : SvcState := ⟨[kwRow], some [(['a'], ['t'])]⟩

/-- Witness for C8: after upserting the fresh document `b`, the keyword
search result (the document `a` with its score) has its identifier inside
the cache snapshot. -/
theorem keyword_search_snapshot_witness :
    (['a'] : Str) ∈ ([((['a'] : Str), (['t'] : Str))].map Prod.fst) :=
  keyword_search_snapshot kwState [(['a'], ['t'])] [newDoc]
    (fun _ _ => 1) [] 1 (⟨['a'], none, none, none, none, none, none, []⟩, 1)
    rfl (by decide) (by decide)

/-! ## Association-list lemmas for the fusion dictionary (C1, C9) -/

theorem pairlookup_cons {α : Type} (a : Str × α) (m : List (Str × α)) (i : Str) :
    pairlookup (a :: m) i = if a.1 = i then some a else pairlookup m i := by
  unfold pairlookup
  by_cases h : a.1 = i
  · rw [if_pos h]
    rw [List.find?_cons_of_pos _ (by simpa using h)]
  · rw [if_neg h]
    rw [List.find?_cons_of_neg _ (by simpa using h)]

theorem pairlookup_append {α : Type} (m1 m2 : List (Str × α)) (i : Str) :
    pairlookup (m1 ++ m2) i
      = match pairlookup m1 i with
        | some p => some p
        | none => pairlookup m2 i := by
  induction m1 with
  | nil => rfl
  | cons a t ih =>
    rw [List.cons_append, pairlookup_cons, pairlookup_cons]
    by_cases h : a.1 = i
    · rw [if_pos h, if_pos h]
    · rw [if_neg h, if_neg h, ih]

theorem pairlookup_eq_none_of_not_mem_keys {α : Type} (m : List (Str × α))
    (i : Str) (h : i ∉ m.map Prod.fst) : pairlookup m i = none := by
  induction m with
  | nil => rfl
  | cons a t ih =>
    rw [List.map_cons, List.mem_cons] at h
    push_neg at h
    rw [pairlookup_cons, if_neg (fun hai => h.1 hai.symm)]
    exact ih h.2

theorem pairlookup_of_mem {α : Type} (m : List (Str × α)) (i : Str) (e : α)
    (hmem : (i, e) ∈ m) (hnd : (m.map Prod.fst).Nodup) :
    pairlookup m i = some (i, e) := by
  induction m with
  | nil => cases hmem
  | cons a t ih =>
    rw [List.map_cons, List.nodup_cons] at hnd
    obtain ⟨hna, hnt⟩ := hnd
    rw [pairlookup_cons]
    rcases List.mem_cons.mp hmem with heq | hmem2
    · rw [← heq]
      rw [if_pos rfl]
    · by_cases hai : a.1 = i
      · exfalso
        apply hna
        rw [hai]
        exact List.mem_map_of_mem Prod.fst hmem2
      · rw [if_neg hai]
        exact ih hmem2 hnt

theorem keyMem_false_iff (m : FMap) (j : Str) :
    keyMem m j = false ↔ j ∉ m.map Prod.fst := by
  unfold keyMem
  rw [List.any_eq_false]
  constructor
  · intro h hmem
    rcases List.mem_map.mp hmem with ⟨p, hp, hpj⟩
    exact absurd (by simpa using hpj) (by simpa using h p hp)
  · intro h p hp hpj
    exact h (List.mem_map.mpr ⟨p, hp, by simpa using hpj⟩)

theorem keyMem_true_pairlookup (m : FMap) (j : Str) (h : keyMem m j = true) :
    ∃ p, pairlookup m j = some p ∧ p.1 = j := by
  unfold keyMem at h
  rcases List.any_eq_true.mp h with ⟨p, hp, hpj⟩
  have : ∃ q ∈ m, (fun q : Str × FEntry => decide (q.1 = j)) q = true :=
    ⟨p, hp, hpj⟩
  have hsome : (m.find? (fun q => decide (q.1 = j))).isSome := by
    rw [List.find?_isSome]
    exact this
  rcases Option.isSome_iff_exists.mp hsome with ⟨q, hq⟩
  refine ⟨q, hq, ?_⟩
  have := List.find?_some hq
  simpa using this

theorem pairlookup_mapUpdate_ne (m : FMap) (j i : Str)
    (f : Str × FEntry → FEntry) (hij : i ≠ j) :
    pairlookup (m.map (fun p => if p.1 = j then (p.1, f p) else p)) i
      = pairlookup m i := by
  induction m with
  | nil => rfl
  | cons a t ih =>
    rw [List.map_cons]
    by_cases ha : a.1 = j
    · rw [show (if a.1 = j then (a.1, f a) else a) = (a.1, f a) from if_pos ha]
      rw [pairlookup_cons, pairlookup_cons]
      have hai : ¬(a.1 = i) := by
        rw [ha]
        exact fun h => hij h.symm
      rw [if_neg hai, if_neg hai]
      exact ih
    · rw [show (if a.1 = j then (a.1, f a) else a) = a from if_neg ha]
      rw [pairlookup_cons, pairlookup_cons]
      by_cases hai : a.1 = i
      · rw [if_pos hai, if_pos hai]
      · rw [if_neg hai, if_neg hai]
        exact ih

theorem pairlookup_mapUpdate_self (m : FMap) (j : Str)
    (f : Str × FEntry → FEntry) :
    pairlookup (m.map (fun p => if p.1 = j then (p.1, f p) else p)) j
      = (pairlookup m j).map (fun p => (p.1, f p)) := by
  induction m with
  | nil => rfl
  | cons a t ih =>
    rw [List.map_cons]
    by_cases ha : a.1 = j
    · rw [show (if a.1 = j then (a.1, f a) else a) = (a.1, f a) from if_pos ha]
      rw [pairlookup_cons, pairlookup_cons]
      rw [if_pos ha, if_pos ha]
      rfl
    · rw [show (if a.1 = j then (a.1, f a) else a) = a from if_neg ha]
      rw [pairlookup_cons, pairlookup_cons]
      rw [if_neg ha, if_neg ha]
      exact ih

theorem pairlookup_insertVec_self (m : FMap) (j : Str) (s : ℚ) :
    pairlookup (insertVec m j s) j = some (j, ⟨some s, none⟩) := by
  unfold insertVec
  by_cases h : keyMem m j = true
  · rw [if_pos h, pairlookup_mapUpdate_self]
    rcases keyMem_true_pairlookup m j h with ⟨p, hp, hpj⟩
    rw [hp]
    simp [hpj]
  · rw [if_neg h, pairlookup_append]
    rw [pairlookup_eq_none_of_not_mem_keys m j
      ((keyMem_false_iff m j).mp (by simpa using h))]
    rw [pairlookup_cons, if_pos rfl]

theorem pairlookup_insertVec_ne (m : FMap) (j i : Str) (s : ℚ) (hij : i ≠ j) :
    pairlookup (insertVec m j s) i = pairlookup m i := by
  unfold insertVec
  by_cases h : keyMem m j = true
  · rw [if_pos h]
    exact pairlookup_mapUpdate_ne m j i _ hij
  · rw [if_neg h, pairlookup_append]
    rw [pairlookup_cons, if_neg (fun hji => hij hji.symm)]
    cases hpm : pairlookup m i with
    | none => rfl
    | some p => rfl

theorem pairlookup_insertKw_self (m : FMap) (j : Str) (s : ℚ) :
    pairlookup (insertKw m j s) j
      = some (j, match pairlookup m j with
                 | some p => ⟨p.2.v, some (max s (p.2.k.getD 0))⟩
                 | none => ⟨none, some s⟩) := by
  unfold insertKw
  by_cases h : keyMem m j = true
  · rw [if_pos h, pairlookup_mapUpdate_self]
    rcases keyMem_true_pairlookup m j h with ⟨p, hp, hpj⟩
    rw [hp]
    simp [hpj]
  · rw [if_neg h, pairlookup_append]
    rw [pairlookup_eq_none_of_not_mem_keys m j
      ((keyMem_false_iff m j).mp (by simpa using h))]
    rw [pairlookup_cons, if_pos rfl]

theorem pairlookup_insertKw_ne (m : FMap) (j i : Str) (s : ℚ) (hij : i ≠ j) :
    pairlookup (insertKw m j s) i = pairlookup m i := by
  unfold insertKw
  by_cases h : keyMem m j = true
  · rw [if_pos h]
    exact pairlookup_mapUpdate_ne m j i _ hij
  · rw [if_neg h, pairlookup_append]
    rw [pairlookup_cons, if_neg (fun hji => hij hji.symm)]
    cases hpm : pairlookup m i with
    | none => rfl
    | some p => rfl

theorem alookup_cons {α : Type} (a : Str × α) (m : List (Str × α)) (i : Str) :
    alookup (a :: m) i = if a.1 = i then some a.2 else alookup m i := by
  unfold alookup
  rw [pairlookup_cons]
  by_cases h : a.1 = i
  · rw [if_pos h, if_pos h]
    rfl
  · rw [if_neg h, if_neg h]

theorem foldVec_pairlookup (ass : List (Str × ℚ)) :
    ∀ (acc : FMap) (i : Str), (ass.map Prod.fst).Nodup →
      pairlookup (ass.foldl (fun m p => insertVec m p.1 p.2) acc) i
        = match alookup ass i with
          | some s => some (i, ⟨some s, none⟩)
          | none => pairlookup acc i := by
  induction ass with
  | nil => intro acc i _; rfl
  | cons a rest ih =>
    intro acc i hnd
    rw [List.map_cons, List.nodup_cons] at hnd
    obtain ⟨hna, hnr⟩ := hnd
    rw [List.foldl_cons, ih (insertVec acc a.1 a.2) i hnr, alookup_cons]
    by_cases hia : a.1 = i
    · have hrest : alookup rest i = none := by
        unfold alookup
        rw [pairlookup_eq_none_of_not_mem_keys rest i (hia ▸ hna)]
        rfl
      rw [hrest, if_pos hia, ← hia]
      rw [pairlookup_insertVec_self]
    · rw [if_neg hia]
      cases halr : alookup rest i with
      | none =>
        rw [pairlookup_insertVec_ne acc a.1 i a.2 (fun h => hia h.symm)]
      | some s => rfl

theorem foldKw_pairlookup (ass : List (Str × ℚ)) :
    ∀ (acc : FMap) (i : Str), (ass.map Prod.fst).Nodup →
      pairlookup (ass.foldl (fun m p => insertKw m p.1 p.2) acc) i
        = match alookup ass i with
          | some s => some (i, match pairlookup acc i with
                              | some p => ⟨p.2.v, some (max s (p.2.k.getD 0))⟩
                              | none => ⟨none, some s⟩)
          | none => pairlookup acc i := by
  induction ass with
  | nil => intro acc i _; rfl
  | cons a rest ih =>
    intro acc i hnd
    rw [List.map_cons, List.nodup_cons] at hnd
    obtain ⟨hna, hnr⟩ := hnd
    rw [List.foldl_cons, ih (insertKw acc a.1 a.2) i hnr, alookup_cons]
    by_cases hia : a.1 = i
    · have hrest : alookup rest i = none := by
        unfold alookup
        rw [pairlookup_eq_none_of_not_mem_keys rest i (hia ▸ hna)]
        rfl
      rw [hrest, if_pos hia, ← hia]
      rw [pairlookup_insertKw_self]
    · rw [if_neg hia]
      cases halr : alookup rest i with
      | none =>
        rw [pairlookup_insertKw_ne acc a.1 i a.2 (fun h => hia h.symm)]
      | some s =>
        rw [pairlookup_insertKw_ne acc a.1 i a.2 (fun h => hia h.symm)]

theorem map_fst_update (m : FMap) (j : Str) (f : Str × FEntry → FEntry) :
    (m.map (fun p => if p.1 = j then (p.1, f p) else p)).map Prod.fst
      = m.map Prod.fst := by
  induction m with
  | nil => rfl
  | cons a t ih =>
    rw [List.map_cons, List.map_cons, List.map_cons]
    congr 1
    by_cases h : a.1 = j
    · rw [if_pos h]
    · rw [if_neg h]

theorem keys_nodup_insertVec (m : FMap) (j : Str) (s : ℚ)
    (h : (m.map Prod.fst).Nodup) :
    ((insertVec m j s).map Prod.fst).Nodup := by
  unfold insertVec
  by_cases hk : keyMem m j = true
  · rw [if_pos hk, map_fst_update]
    exact h
  · rw [if_neg hk, List.map_append]
    have hj : j ∉ m.map Prod.fst :=
      (keyMem_false_iff m j).mp (by simpa using hk)
    simp [List.nodup_append, h, hj]

theorem keys_nodup_insertKw (m : FMap) (j : Str) (s : ℚ)
    (h : (m.map Prod.fst).Nodup) :
    ((insertKw m j s).map Prod.fst).Nodup := by
  unfold insertKw
  by_cases hk : keyMem m j = true
  · rw [if_pos hk, map_fst_update]
    exact h
  · rw [if_neg hk, List.map_append]
    have hj : j ∉ m.map Prod.fst :=
      (keyMem_false_iff m j).mp (by simpa using hk)
    simp [List.nodup_append, h, hj]

theorem foldVec_keys_nodup (ass : List (Str × ℚ)) :
    ∀ acc : FMap, (acc.map Prod.fst).Nodup →
      (((ass.foldl (fun m p => insertVec m p.1 p.2) acc)).map Prod.fst).Nodup := by
  induction ass with
  | nil => intro acc h; exact h
  | cons a rest ih =>
    intro acc h
    rw [List.foldl_cons]
    exact ih _ (keys_nodup_insertVec acc a.1 a.2 h)

theorem foldKw_keys_nodup (ass : List (Str × ℚ)) :
    ∀ acc : FMap, (acc.map Prod.fst).Nodup →
      (((ass.foldl (fun m p => insertKw m p.1 p.2) acc)).map Prod.fst).Nodup := by
  induction ass with
  | nil => intro acc h; exact h
  | cons a rest ih =>
    intro acc h
    rw [List.foldl_cons]
    exact ih _ (keys_nodup_insertKw acc a.1 a.2 h)

theorem buildCombined_keys_nodup (vh kh : HitList) :
    ((buildCombined vh kh).map Prod.fst).Nodup := by
  unfold buildCombined
  exact foldKw_keys_nodup _ _ (foldVec_keys_nodup _ [] (by simp))

theorem vassoc_keys (vh : HitList) :
    (vassoc vh).map Prod.fst = vh.map Prod.fst := by
  unfold vassoc
  exact List.map_fst_zip _ _ (by simp [minmaxNorm])

theorem kassoc_keys (kh : HitList) :
    (kassoc kh).map Prod.fst = kh.map Prod.fst := by
  unfold kassoc
  exact List.map_fst_zip _ _ (by simp [minmaxNorm])

/-- The lookup structure of the fused dictionary: the entry of a document id
is its normalized vector score (when the vector pass saw it) and its
normalized keyword score, the latter maxed with the default `0.0` when both
passes saw the id. -/
theorem buildCombined_pairlookup (vh kh : HitList) (i : Str)
    (hv : (vh.map Prod.fst).Nodup) (hk : (kh.map Prod.fst).Nodup) :
    pairlookup (buildCombined vh kh) i
      = match alookup (kassoc kh) i, alookup (vassoc vh) i with
        | none, none => none
        | none, some v => some (i, ⟨some v, none⟩)
        | some s, none => some (i, ⟨none, some s⟩)
        | some s, some v => some (i, ⟨some v, some (max s 0)⟩) := by
  unfold buildCombined
  rw [foldKw_pairlookup _ _ i (by rw [kassoc_keys]; exact hk)]
  cases halk : alookup (kassoc kh) i with
  | none =>
    rw [foldVec_pairlookup _ [] i (by rw [vassoc_keys]; exact hv)]
    cases halv : alookup (vassoc vh) i with
    | none => rfl
    | some v => rfl
  | some s =>
    rw [foldVec_pairlookup _ [] i (by rw [vassoc_keys]; exact hv)]
    cases halv : alookup (vassoc vh) i with
    | none => rfl
    | some v => rfl

theorem alookup_kassoc_bounds (kh : HitList) (i : Str) (s : ℚ)
    (h : alookup (kassoc kh) i = some s) : 0 ≤ s ∧ s ≤ 1 := by
  unfold alookup at h
  cases hf : pairlookup (kassoc kh) i with
  | none => rw [hf] at h; cases h
  | some q =>
    rw [hf] at h
    have hq : q ∈ kassoc kh := List.mem_of_find?_eq_some hf
    obtain ⟨i2, s2⟩ := q
    have hmem : s2 ∈ minmaxNorm (kh.map Prod.snd) := (List.of_mem_zip hq).2
    have hs2 : s2 = s := by simpa using h
    exact hs2 ▸ minmaxNorm_bounds _ _ hmem

theorem alookup_vassoc_bounds (vh : HitList) (i : Str) (s : ℚ)
    (h : alookup (vassoc vh) i = some s) : 0 ≤ s ∧ s ≤ 1 := by
  unfold alookup at h
  cases hf : pairlookup (vassoc vh) i with
  | none => rw [hf] at h; cases h
  | some q =>
    rw [hf] at h
    have hq : q ∈ vassoc vh := List.mem_of_find?_eq_some hf
    obtain ⟨i2, s2⟩ := q
    have hmem : s2 ∈ minmaxNorm (vh.map Prod.snd) := (List.of_mem_zip hq).2
    have hs2 : s2 = s := by simpa using h
    exact hs2 ▸ minmaxNorm_bounds _ _ hmem

/-- C1: every hit hybrid search returns carries the fused score
`0.6 * vscore + 0.4 * kscore`, where `vscore` is the document's min-max
normalized vector score (`0.0` when the document is absent from the vector
results — in particular whenever the vector result set is empty) and
`kscore` its min-max normalized keyword score (`0.0` when absent from the
keyword results).  The id columns of the two sub-result lists are free of
duplicates, as `SELECT`s keyed on the primary key produce them. -/
theorem hybrid_score_eq (vh kh : HitList) (top_k : Nat) (p : Str × ℚ)
    (hv : (vh.map Prod.fst).Nodup) (hk : (kh.map Prod.fst).Nodup)
    (hp : p ∈ hybrid_search vh kh top_k) :
    p.2 = 6/10 * ((alookup (vassoc vh) p.1).getD 0)
        + 4/10 * ((alookup (kassoc kh) p.1).getD 0) := by
  unfold hybrid_search at hp
  have hp2 := List.take_subset top_k _ hp
  have hp3 := (mem_sortBy _ p _).mp hp2
  rcases List.mem_map.mp hp3 with ⟨q, hq, hqp⟩
  obtain ⟨i, e⟩ := q
  have hql : pairlookup (buildCombined vh kh) i = some (i, e) :=
    pairlookup_of_mem _ i e hq (buildCombined_keys_nodup vh kh)
  rw [buildCombined_pairlookup vh kh i hv hk] at hql
  subst hqp
  show fuseScore e = 6/10 * ((alookup (vassoc vh) i).getD 0)
      + 4/10 * ((alookup (kassoc kh) i).getD 0)
  cases halk : alookup (kassoc kh) i with
  | none =>
    cases halv : alookup (vassoc vh) i with
    | none =>
      rw [halk, halv] at hql
      cases hql
    | some v =>
      rw [halk, halv] at hql
      have he : e = ⟨some v, none⟩ := by
        injection hql with h1
        injection h1 with h2 h3
        exact h3.symm
      rw [he]
      show 6/10 * v + 4/10 * (0 : ℚ) = 6/10 * v + 4/10 * 0
      rfl
  | some s =>
    cases halv : alookup (vassoc vh) i with
    | none =>
      rw [halk, halv] at hql
      have he : e = ⟨none, some s⟩ := by
        injection hql with h1
        injection h1 with h2 h3
        exact h3.symm
      rw [he]
      rfl
    | some v =>
      rw [halk, halv] at hql
      have he : e = ⟨some v, some (max s 0)⟩ := by
        injection hql with h1
        injection h1 with h2 h3
        exact h3.symm
      have hs : max s 0 = s :=
        max_eq_left (alookup_kassoc_bounds kh i s halk).1
      rw [he]
      show 6/10 * v + 4/10 * ((max s 0 : ℚ)) = 6/10 * v + 4/10 * s
      rw [hs]

/-- A fusion-dictionary entry whose recorded sub-scores lie in `[0, 1]`. -/
def entryBounded (e : FEntry) : Prop :=
  (∀ x, e.v = some x → 0 ≤ x ∧ x ≤ 1) ∧ (∀ x, e.k = some x → 0 ≤ x ∧ x ≤ 1)

theorem entryBounded_insertVec (m : FMap) (j : Str) (s : ℚ)
    (hs : 0 ≤ s ∧ s ≤ 1) (hm : ∀ p ∈ m, entryBounded p.2) :
    ∀ p ∈ insertVec m j s, entryBounded p.2 := by
  intro p hp
  have hnew : entryBounded ⟨some s, none⟩ :=
    ⟨fun x hx => by injection hx with h; exact h ▸ hs,
     fun x hx => by cases hx⟩
  unfold insertVec at hp
  by_cases hk : keyMem m j = true
  · rw [if_pos hk] at hp
    rcases List.mem_map.mp hp with ⟨q, hq, hqp⟩
    by_cases hqj : q.1 = j
    · rw [if_pos hqj] at hqp
      rw [← hqp]
      exact hnew
    · rw [if_neg hqj] at hqp
      rw [← hqp]
      exact hm q hq
  · rw [if_neg hk] at hp
    rcases List.mem_append.mp hp with hp | hp
    · exact hm p hp
    · rcases List.mem_singleton.mp hp with rfl
      exact hnew

theorem entryBounded_insertKw (m : FMap) (j : Str) (s : ℚ)
    (hs : 0 ≤ s ∧ s ≤ 1) (hm : ∀ p ∈ m, entryBounded p.2) :
    ∀ p ∈ insertKw m j s, entryBounded p.2 := by
  intro p hp
  unfold insertKw at hp
  by_cases hk : keyMem m j = true
  · rw [if_pos hk] at hp
    rcases List.mem_map.mp hp with ⟨q, hq, hqp⟩
    by_cases hqj : q.1 = j
    · rw [if_pos hqj] at hqp
      rw [← hqp]
      obtain ⟨hqv, hqk⟩ := hm q hq
      refine ⟨hqv, fun x hx => ?_⟩
      injection hx with h
      have hd : 0 ≤ q.2.k.getD 0 ∧ q.2.k.getD 0 ≤ 1 := by
        cases hok : q.2.k with
        | none => simp
        | some y => simpa using hqk y hok
      subst h
      constructor
      · exact le_trans hs.1 (le_max_left s _)
      · exact max_le hs.2 hd.2
    · rw [if_neg hqj] at hqp
      rw [← hqp]
      exact hm q hq
  · rw [if_neg hk] at hp
    rcases List.mem_append.mp hp with hp | hp
    · exact hm p hp
    · rcases List.mem_singleton.mp hp with rfl
      refine ⟨fun x hx => ?_, fun x hx => ?_⟩
      · cases hx
      · injection hx with h
        exact h ▸ hs

theorem foldVec_bounded (ass : List (Str × ℚ))
    (hass : ∀ q ∈ ass, 0 ≤ q.2 ∧ q.2 ≤ 1) :
    ∀ acc : FMap, (∀ p ∈ acc, entryBounded p.2) →
      ∀ p ∈ ass.foldl (fun m q => insertVec m q.1 q.2) acc, entryBounded p.2 := by
  induction ass with
  | nil => intro acc hacc p hp; exact hacc p hp
  | cons a rest ih =>
    intro acc hacc p hp
    rw [List.foldl_cons] at hp
    refine ih (fun q hq => hass q (List.mem_cons_of_mem a hq)) _ ?_ p hp
    exact entryBounded_insertVec acc a.1 a.2
      (hass a (List.mem_cons_self a rest)) hacc

theorem foldKw_bounded (ass : List (Str × ℚ))
    (hass : ∀ q ∈ ass, 0 ≤ q.2 ∧ q.2 ≤ 1) :
    ∀ acc : FMap, (∀ p ∈ acc, entryBounded p.2) →
      ∀ p ∈ ass.foldl (fun m q => insertKw m q.1 q.2) acc, entryBounded p.2 := by
  induction ass with
  | nil => intro acc hacc p hp; exact hacc p hp
  | cons a rest ih =>
    intro acc hacc p hp
    rw [List.foldl_cons] at hp
    refine ih (fun q hq => hass q (List.mem_cons_of_mem a hq)) _ ?_ p hp
    exact entryBounded_insertKw acc a.1 a.2
      (hass a (List.mem_cons_self a rest)) hacc

theorem vassoc_bounds (vh : HitList) :
    ∀ q ∈ vassoc vh, 0 ≤ q.2 ∧ q.2 ≤ 1 := by
  intro q hq
  obtain ⟨i, s⟩ := q
  exact minmaxNorm_bounds _ _ (List.of_mem_zip hq).2

theorem kassoc_bounds (kh : HitList) :
    ∀ q ∈ kassoc kh, 0 ≤ q.2 ∧ q.2 ≤ 1 := by
  intro q hq
  obtain ⟨i, s⟩ := q
  exact minmaxNorm_bounds _ _ (List.of_mem_zip hq).2

/-- C9: every document hybrid search returns has a fused score inside
`[0, 1]`: each normalized sub-score lies in `[0, 1]`, hence so does
`0.6 * vscore + 0.4 * kscore`. -/
theorem hybrid_score_bounds (vh kh : HitList) (top_k : Nat) (p : Str × ℚ)
    (hp : p ∈ hybrid_search vh kh top_k) : 0 ≤ p.2 ∧ p.2 ≤ 1 := by
  unfold hybrid_search at hp
  have hp2 := List.take_subset top_k _ hp
  have hp3 := (mem_sortBy _ p _).mp hp2
  rcases List.mem_map.mp hp3 with ⟨q, hq, hqp⟩
  have hb : entryBounded q.2 := by
    unfold buildCombined at hq
    exact foldKw_bounded _ (kassoc_bounds kh) _
      (foldVec_bounded _ (vassoc_bounds vh) [] (by simp)) q hq
  subst hqp
  show 0 ≤ fuseScore q.2 ∧ fuseScore q.2 ≤ 1
  obtain ⟨hv, hk⟩ := hb
  have hV : 0 ≤ q.2.v.getD 0 ∧ q.2.v.getD 0 ≤ 1 := by
    cases hov : q.2.v with
    | none => simp
    | some x => simpa using hv x hov
  have hK : 0 ≤ q.2.k.getD 0 ∧ q.2.k.getD 0 ≤ 1 := by
    cases hok : q.2.k with
    | none => simp
    | some x => simpa using hk x hok
  unfold fuseScore
  constructor
  · have := hV.1
    have := hK.1
    positivity
  · nlinarith [hV.1, hV.2, hK.1, hK.2]

/-- Concrete evaluation: a single keyword hit normalizes to score `0` and
fuses to `0.6 * 0 + 0.4 * 0 = 0`. -/
theorem hybrid_eval_kw_only :
    hybrid_search [] [(['a'], (5 : ℚ))] 1 = [(['a'], 0)] := by
  have hmm : minmaxNorm (List.map Prod.snd [(['a'], (5 : ℚ))]) = [0] := by
    norm_num [minmaxNorm, listMin, listMax, eps]
  unfold hybrid_search buildCombined kassoc vassoc
  rw [hmm]
  norm_num [sortBy, insertBy, scoreDescLE, fuseScore, insertKw, insertVec,
    keyMem, minmaxNorm, listMin, listMax, eps]

/-- Concrete evaluation: a single vector hit normalizes to score `0` and
fuses to `0`. -/
theorem hybrid_eval_vec_only :
    hybrid_search [(['b'], (7 : ℚ))] [] 1 = [(['b'], 0)] := by
  have hmm : minmaxNorm (List.map Prod.snd [(['b'], (7 : ℚ))]) = [0] := by
    norm_num [minmaxNorm, listMin, listMax, eps]
  unfold hybrid_search buildCombined vassoc kassoc
  rw [hmm]
  norm_num [sortBy, insertBy, scoreDescLE, fuseScore, insertKw, insertVec,
    keyMem, minmaxNorm, listMin, listMax, eps]

/-- Witness for C1 at an empty vector result set and one keyword hit: the
returned score is `0.6 * 0.0 + 0.4 * kscore` with `kscore = 0`. -/
theorem hybrid_score_eq_witness :
    ((['a'], (0 : ℚ)) : Str × ℚ).2
      = 6/10 * ((alookup (vassoc ([] : HitList)) (['a'], (0 : ℚ)).1).getD 0)
      + 4/10 * ((alookup (kassoc [(['a'], (5 : ℚ))]) (['a'], (0 : ℚ)).1).getD 0) :=
  hybrid_score_eq [] [(['a'], 5)] 1 (['a'], 0) (by simp) (by simp)
    (by rw [hybrid_eval_kw_only]; exact List.mem_singleton.mpr rfl)

/-- Witness for C9 at one vector hit: the returned fused score `0` lies in
`[0, 1]`. -/
theorem hybrid_score_bounds_witness :
    0 ≤ ((['b'], (0 : ℚ)) : Str × ℚ).2 ∧ ((['b'], (0 : ℚ)) : Str × ℚ).2 ≤ 1 :=
  hybrid_score_bounds [(['b'], 7)] [] 1 (['b'], 0)
    (by rw [hybrid_eval_vec_only]; exact List.mem_singleton.mpr rfl)
